import Mathlib

/-!
Shallow embedding of `src/inventory_system.py`, the single-file inventory
manager.  The Python object `Inventory` owns one field, `self._stock`, a
`dict` from `str` to `int`.  Python dicts preserve insertion order, look up
by exact string equality, update an existing key in place (keeping its
position), and append new keys at the end; we model the dict as an
insertion-ordered association list with those exact operations.

Methods that mutate the object are modelled as functions from the stock to
a pair of the post-call stock and an optional exception that escapes the
call (in `remove_item` and `add_item` every `raise` happens before any
mutation, and in `load_data` the dict comprehension aborts before the
assignment, so the post-call stock on an exception equals the input stock,
which the pair makes explicit).  Pure queries return `Except`.
`load_data` catches `FileNotFoundError`, `json.JSONDecodeError`,
`TypeError` and `ValueError`, but not the `OverflowError` that `int()`
raises on an infinite float (produced by `json.load` from an overflowing
number literal such as `1e400`): that one propagates to the caller.
-/

/-- The type of `Inventory._stock`: a Python `dict[str, int]`, modelled as
an insertion-ordered association list. -/
abbrev Stock := List (String × Int)

/-- The Python exceptions the source can raise: `TypeError` and
`ValueError` (both mapped to the spec's InvalidArgument), `KeyError`
(NotFound), and the `OverflowError` that `int()` raises on an infinite
float. -/
inductive PyErr where
  | typeError
  | valueError
  | keyError
  | overflowError
deriving DecidableEq, Repr

/-- Dynamically typed Python values, as far as the `isinstance` checks in
the source distinguish them: strings, ints, bools (a subclass of `int` in
Python), floats and `None`. -/
inductive PyVal where
  | vStr (s : String)
  | vInt (n : Int)
  | vBool (b : Bool)
  | vFloat (mantissa : Int) (exp2 : Int)
  | vNone
deriving DecidableEq, Repr

deriving instance DecidableEq for Except

/-- `isinstance(v, str)`. -/
def pyIsStr : PyVal → Bool
  | .vStr _ => true
  | _ => false

/-- `isinstance(v, int)`.  In Python `bool` is a subclass of `int`, so
`isinstance(True, int)` is `True`. -/
def pyIsInt : PyVal → Bool
  | .vInt _ => true
  | .vBool _ => true
  | _ => false

/-- The string carried by a `str` value (junk `""` elsewhere; only used
under a `pyIsStr` guard, mirroring the source's post-`isinstance` uses). -/
def pyAsStr : PyVal → String
  | .vStr s => s
  | _ => ""

/-- The integer carried by an `int` value, with `True = 1`, `False = 0`
(junk `0` elsewhere; only used under a `pyIsInt` guard). -/
def pyAsInt : PyVal → Int
  | .vInt n => n
  | .vBool b => cond b 1 0
  | _ => 0

/-- `d.get(key)` / `key in d`: first (unique, in a real dict) binding. -/
def dget : Stock → String → Option Int
  | [], _ => none
  | (k, v) :: rest, key => if k = key then some v else dget rest key

/-- `d[key] = val`: replace the value of an existing key in place (keeping
its position, as Python dicts do), else append the new binding. -/
def dset : Stock → String → Int → Stock
  | [], key, val => [(key, val)]
  | (k, v) :: rest, key, val =>
      if k = key then (k, val) :: rest else (k, v) :: dset rest key val

/-- `del d[key]`: drop the binding of `key`, keeping the others in
order. -/
def ddel : Stock → String → Stock
  | [], _ => []
  | (k, v) :: rest, key =>
      if k = key then ddel rest key else (k, v) :: ddel rest key

/-- `Inventory.add_item` (source lines 23–33): type-check `item` and
`qty`, reject negative `qty`, then `self._stock[item] =
self._stock.get(item, 0) + qty`.  Logging is observational only. -/
def add_item (item qty : PyVal) (s : Stock) : Stock × Option PyErr :=
  if ¬ pyIsStr item then (s, some .typeError)
  else if ¬ pyIsInt qty then (s, some .typeError)
  else if pyAsInt qty < 0 then (s, some .valueError)
  else
    (dset s (pyAsStr item) ((dget s (pyAsStr item)).getD 0 + pyAsInt qty), none)

/-- `Inventory.remove_item` (source lines 35–52): type checks, reject
negative `qty`, `KeyError` when the item is absent (after a warning log),
then delete the binding entirely when `self._stock[item] <= qty`, else
decrement it. -/
def remove_item (item qty : PyVal) (s : Stock) : Stock × Option PyErr :=
  if ¬ pyIsStr item then (s, some .typeError)
  else if ¬ pyIsInt qty then (s, some .typeError)
  else if pyAsInt qty < 0 then (s, some .valueError)
  else
    match dget s (pyAsStr item) with
    | none => (s, some .keyError)
    | some c =>
        if c ≤ pyAsInt qty then (ddel s (pyAsStr item), none)
        else (dset s (pyAsStr item) (c - pyAsInt qty), none)

/-- `Inventory.get_qty` (source lines 54–58): type-check `item`, then
`self._stock.get(item, 0)`. -/
def get_qty (item : PyVal) (s : Stock) : Except PyErr Int :=
  if ¬ pyIsStr item then .error .typeError
  else .ok ((dget s (pyAsStr item)).getD 0)

/-- Convenience: `self._stock.get(item, 0)` on an already-typed string. -/
def getQty (s : Stock) (item : String) : Int :=
  (dget s item).getD 0

/-- `Inventory.check_low_items` (source lines 60–64): type-check the
threshold, then `[name for name, qty in self._stock.items() if qty <
threshold]` — the names of bindings strictly below the threshold, in the
dict's insertion order. -/
def check_low_items (threshold : PyVal) (s : Stock) : Except PyErr (List String) :=
  if ¬ pyIsInt threshold then .error .typeError
  else .ok ((s.filter fun kv => kv.2 < pyAsInt threshold).map Prod.fst)

/-- `Inventory.__init__` (source lines 17–21): start from `{}` and, when
an initial mapping is given, insert `str(k) → int(v)` for each of its
items in order (on an already-typed `dict[str, int]` both coercions are
the identity). -/
def initStock (initial : List (String × Int)) : Stock :=
  initial.foldl (fun acc kv => dset acc kv.1 kv.2) []

/-- JSON values as returned by `json.load`: the top-level check in
`load_data` is `isinstance(data, dict)`.  A JSON number with a fractional
part or exponent parses to a Python binary64 float, and what `load_data`
receives is that parsed float, so we model the float *value*: every
finite binary64 is exactly a dyadic rational `mantissa × 2^exp2`
(`jfloat 8782019273372467 (-51)` is `float("3.9")`); an overflowing
literal such as `1e400` (or the non-standard `Infinity` the parser also
accepts) arrives as `jinf` / `jninf`, and `NaN` as `jnan`.  The
decimal-to-binary64 rounding is performed inside `json.load`, before
`load_data`'s own code runs, and is therefore outside this model (e.g.
the file literal `0.99999999999999999` arrives as `jfloat 1 0`, the
float `1.0`). -/
inductive JVal where
  | jnull
  | jbool (b : Bool)
  | jint (n : Int)
  | jfloat (mantissa : Int) (exp2 : Int)
  | jinf
  | jninf
  | jnan
  | jstr (s : String)
  | jarr (xs : List JVal)
  | jobj (fields : List (String × JVal))

/-- Whether a JSON value is an object (`isinstance(data, dict)`). -/
def isJObj : JVal → Bool
  | .jobj _ => true
  | _ => false

/-- Truncation toward zero of the finite binary64 value
`mantissa × 2^exp2`, the behaviour of Python `int()` on a finite float
(`int(float("3.9")) = 3`, `int(float("-3.9")) = -3`,
`int(float("0.99999999999999999")) = int(1.0) = 1`): `Int.tdiv` is
integer division rounding toward zero, exact on dyadic rationals. -/
def floatTruncTowardZero (mantissa : Int) (exp2 : Int) : Int :=
  if 0 ≤ exp2 then mantissa * (2 : Int) ^ exp2.toNat
  else mantissa.tdiv ((2 : Int) ^ (-exp2).toNat)

/-- Continue reading a digit run that Python's `int()` accepts after its
first digit: further digits, with single underscores allowed only
*between* digits (`"1_2"` is fine; a trailing, leading or doubled
underscore is not). -/
def digitsGroupedGo : Nat → List Char → Option Nat
  | acc, [] => some acc
  | acc, '_' :: c :: rest =>
      if c.isDigit then digitsGroupedGo (10 * acc + (c.toNat - 48)) rest
      else none
  | _, ['_'] => none
  | acc, c :: rest =>
      if c.isDigit then digitsGroupedGo (10 * acc + (c.toNat - 48)) rest
      else none

/-- A digit run per Python's `int()` grammar: starts with a digit, then
digits with single underscores between them (`int("1_2") = 12`,
`int("1__2")` and `int("1_")` raise `ValueError`). -/
def parseDigits : List Char → Option Nat
  | c :: rest => if c.isDigit then digitsGroupedGo (c.toNat - 48) rest else none
  | [] => none

/-- Model of Python `int()` applied to a `str`: optional surrounding
whitespace, an optional sign, then decimal digits with single
underscores between digits.  Python additionally accepts non-ASCII
Unicode decimal digit characters; those are outside this model (treated
as non-coercible), and no theorem below quantifies over string
values. -/
def parseIntStr (s : String) : Option Int :=
  match ((s.toList.dropWhile Char.isWhitespace).reverse.dropWhile
      Char.isWhitespace).reverse with
  | '+' :: cs => (parseDigits cs).map fun n => (n : Int)
  | '-' :: cs => (parseDigits cs).map fun n => -(n : Int)
  | cs => (parseDigits cs).map fun n => (n : Int)

/-- Python `int(v)` on a JSON-decoded value (source line 91): identity on
ints, `True ↦ 1` / `False ↦ 0`, truncation toward zero on finite floats,
`OverflowError` on infinite floats, `ValueError` on NaN, decimal parse on
strings (`ValueError` when unparsable), `TypeError` on `None`, lists and
dicts. -/
def pyIntOf : JVal → Except PyErr Int
  | .jint n => .ok n
  | .jbool b => .ok (cond b 1 0)
  | .jfloat m e => .ok (floatTruncTowardZero m e)
  | .jinf => .error .overflowError
  | .jninf => .error .overflowError
  | .jnan => .error .valueError
  | .jstr s =>
      match parseIntStr s with
      | some n => .ok n
      | none => .error .valueError
  | .jnull => .error .typeError
  | .jarr _ => .error .typeError
  | .jobj _ => .error .typeError

/-- The dict comprehension `{str(k): int(v) for k, v in data.items()}`
(source line 91): built completely before being assigned to
`self._stock`, so a failing `int(v)` aborts it with no mutation.  Keys of
a decoded JSON object are already strings, so `str(k) = k`. -/
def coerceStock : List (String × JVal) → Stock → Except PyErr Stock
  | [], acc => .ok acc
  | (k, v) :: rest, acc =>
      match pyIntOf v with
      | .ok n => coerceStock rest (dset acc k n)
      | .error e => .error e

/-- What opening and decoding the file at a path can yield: no file
(`FileNotFoundError`), undecodable text (`json.JSONDecodeError`), or a
decoded JSON value. -/
inductive FileContent where
  | missing
  | malformed
  | json (v : JVal)

/-- `Inventory.load_data` (source lines 82–98), returning the post-call
stock and the exception that escapes the call, if any.
`FileNotFoundError`, `JSONDecodeError`, `TypeError` and `ValueError` are
caught and only logged, and a non-dict top level returns early; an
exception outside those clauses — the `OverflowError` from `int()` on an
infinite float — propagates to the caller.  The stock is replaced only
when the whole coercion succeeds; on any failure the prior stock is kept
(the comprehension aborts before the assignment). -/
def load_data (file : FileContent) (s : Stock) : Stock × Option PyErr :=
  match file with
  | .missing => (s, none)
  | .malformed => (s, none)
  | .json v =>
      match v with
      | .jobj fields =>
          match coerceStock fields [] with
          | .ok d => (d, none)
          | .error .typeError => (s, none)
          | .error .valueError => (s, none)
          | .error e => (s, some e)
      | _ => (s, none)

/-- `Inventory.save_data` (source lines 72–80): `json.dump(self._stock)`,
an object with the stock's string keys and integer values in insertion
order.  (The `OSError` path only logs and re-raises; a successful save
writes exactly this value.) -/
def save_data (s : Stock) : FileContent :=
  .json (.jobj (s.map fun kv => (kv.1, JVal.jint kv.2)))

/-- All stored quantities are nonnegative. -/
def stockNonneg (s : Stock) : Prop :=
  ∀ kv ∈ s, 0 ≤ kv.2

/-- A file whose successfully coerced values are all nonnegative. -/
def nonnegFile : FileContent → Prop
  | .json (.jobj fields) => ∀ kv ∈ fields, ∀ n : Int, pyIntOf kv.2 = .ok n → 0 ≤ n
  | _ => True

/-- The keys of the stock are pairwise distinct (true of every stock that
denotes a Python dict). -/
def distinctKeys (s : Stock) : Prop :=
  (s.map Prod.fst).Nodup

instance (s : Stock) : Decidable (distinctKeys s) :=
  inferInstanceAs (Decidable (s.map Prod.fst).Nodup)

/-- Ledger states reachable per the spec's lifecycle: created empty or
from an initial mapping, then mutated via `add_item` / `remove_item`
(successful calls; a raising call leaves the stock unchanged, see
`add_item` / `remove_item`) and via `load_data`.  The nonnegativity side
conditions on `init` and `loadStep` are those of the amended invariant
claim. -/
inductive Reachable : Stock → Prop where
  | empty : Reachable []
  | init (l : List (String × Int)) (h : ∀ kv ∈ l, 0 ≤ kv.2) : Reachable (initStock l)
  | addStep (s t : Stock) (item qty : PyVal) (h : Reachable s)
      (he : add_item item qty s = (t, none)) : Reachable t
  | removeStep (s t : Stock) (item qty : PyVal) (h : Reachable s)
      (he : remove_item item qty s = (t, none)) : Reachable t
  | loadStep (s : Stock) (file : FileContent) (h : Reachable s)
      (hf : nonnegFile file) : Reachable (load_data file s).1

/-- One call in a client session: `add_item(item, q)` or
`remove_item(item, q)` on typed arguments. -/
inductive Op where
  | add (item : String) (q : Int)
  | remove (item : String) (q : Int)
deriving DecidableEq, Repr

/-- Run one call against the stock. -/
def stepOp (s : Stock) : Op → Stock × Option PyErr
  | .add i q => add_item (.vStr i) (.vInt q) s
  | .remove i q => remove_item (.vStr i) (.vInt q) s

/-- Run a sequence of calls; `none` when any call raises. -/
def runOps : Stock → List Op → Option Stock
  | s, [] => some s
  | s, op :: rest =>
      match stepOp s op with
      | (t, none) => runOps t rest
      | (_, some _) => none

/-- The effect of one call on a single item's binding (`none` = absent):
an add of this item sets `current.getD 0 + q`; a remove of this item
deletes the binding when `current ≤ q`, else subtracts; calls naming
other items do not touch it. -/
def itemStep (item : String) (st : Option Int) : Op → Option Int
  | .add i q => if i = item then some (st.getD 0 + q) else st
  | .remove i q =>
      if i = item then
        match st with
        | some c => if c ≤ q then none else some (c - q)
        | none => none
      else st

/-- Fold of `itemStep` over a call sequence. -/
def itemRun (item : String) (st : Option Int) (ops : List Op) : Option Int :=
  ops.foldl (itemStep item) st

/-- Sum of the `q` arguments of `add item q` calls in a sequence. -/
def sumAdded (item : String) (ops : List Op) : Int :=
  ops.foldl
    (fun a op =>
      match op with
      | .add i q => if i = item then a + q else a
      | .remove _ _ => a)
    0

/-- Sum of the `q` arguments of `remove item q` calls in a sequence. -/
def sumRemoved (item : String) (ops : List Op) : Int :=
  ops.foldl
    (fun a op =>
      match op with
      | .remove i q => if i = item then a + q else a
      | .add _ _ => a)
    0

/-- `isinstance(v, float)` on a JSON-decoded value: true of every float,
the non-finite ones included (`isinstance(float("inf"), float)` is
`True`). -/
def isFloatValue : JVal → Bool
  | .jfloat _ _ => true
  | .jinf => true
  | .jninf => true
  | .jnan => true
  | _ => false

/-- Whether a JSON value is a finite float or a bool — the value shapes
on which `int()` succeeds with truncation / 0-or-1. -/
def isFiniteFloatOrBool : JVal → Bool
  | .jfloat _ _ => true
  | .jbool _ => true
  | _ => false

/-- What `int(v)` returns on a finite float or bool value: truncation
toward zero, respectively `True ↦ 1` / `False ↦ 0` (junk `0` on other
shapes; only used under an `isFiniteFloatOrBool` guard). -/
def floatBoolToInt : JVal → Int
  | .jfloat m e => floatTruncTowardZero m e
  | .jbool b => cond b 1 0
  | _ => 0


/-! ### Dictionary lemmas -/

theorem dget_dset_self (s : Stock) (k : String) (v : Int) :
    dget (dset s k v) k = some v := by
  induction s with
  | nil => simp [dget, dset]
  | cons kv rest ih =>
    obtain ⟨k1, v1⟩ := kv
    by_cases h : k1 = k
    · simp [dset, h, dget]
    · simp [dset, h, dget, ih]

theorem dget_dset_ne (s : Stock) (k k' : String) (v : Int) (h : k' ≠ k) :
    dget (dset s k v) k' = dget s k' := by
  induction s with
  | nil => simp [dget, dset, Ne.symm h]
  | cons kv rest ih =>
    obtain ⟨k1, v1⟩ := kv
    by_cases h1 : k1 = k
    · simp [dset, h1, dget, Ne.symm h]
    · simp [dset, h1, dget, ih]

theorem dget_ddel_self (s : Stock) (k : String) :
    dget (ddel s k) k = none := by
  induction s with
  | nil => simp [ddel, dget]
  | cons kv rest ih =>
    obtain ⟨k1, v1⟩ := kv
    by_cases h : k1 = k
    · simp [ddel, h, ih]
    · simp [ddel, h, dget, ih]

theorem dget_ddel_ne (s : Stock) (k k' : String) (h : k' ≠ k) :
    dget (ddel s k) k' = dget s k' := by
  induction s with
  | nil => simp [ddel]
  | cons kv rest ih =>
    obtain ⟨k1, v1⟩ := kv
    by_cases h1 : k1 = k
    · simp [ddel, h1, dget, Ne.symm h, ih]
    · simp [ddel, h1, dget, ih]

theorem dget_mem (s : Stock) (k : String) (v : Int) (h : dget s k = some v) :
    (k, v) ∈ s := by
  induction s with
  | nil => simp [dget] at h
  | cons kv rest ih =>
    obtain ⟨k1, v1⟩ := kv
    by_cases h1 : k1 = k
    · subst h1
      simp [dget] at h
      subst h
      exact List.mem_cons_self _ _
    · simp [dget, h1] at h
      exact List.mem_cons_of_mem _ (ih h)

theorem dget_eq_some_of_mem (s : Stock) (k : String) (v : Int)
    (hd : distinctKeys s) (h : (k, v) ∈ s) : dget s k = some v := by
  induction s with
  | nil => simp at h
  | cons kv rest ih =>
    obtain ⟨k1, v1⟩ := kv
    have hd1 : distinctKeys rest := by
      simpa [distinctKeys] using (List.nodup_cons.mp hd).2
    rcases List.mem_cons.mp h with h | h
    · obtain ⟨hk, hv⟩ := Prod.mk.injEq _ _ _ _ ▸ h
      simp [dget, hk.symm, hv]
    · have hk1 : k1 ≠ k := by
        intro he
        subst he
        have : k1 ∈ rest.map Prod.fst := List.mem_map_of_mem Prod.fst h
        exact (List.nodup_cons.mp hd).1 this
      simp [dget, hk1, ih hd1 h]

/-! ### Nonnegativity lemmas -/

theorem stockNonneg_nil : stockNonneg [] := by
  intro kv hkv
  simp at hkv

theorem stockNonneg_dset (s : Stock) (k : String) (v : Int)
    (hs : stockNonneg s) (hv : 0 ≤ v) : stockNonneg (dset s k v) := by
  induction s with
  | nil =>
    intro kv hkv
    simp [dset] at hkv
    simp [hkv, hv]
  | cons kv1 rest ih =>
    obtain ⟨k1, v1⟩ := kv1
    have h1 : 0 ≤ v1 := hs (k1, v1) (List.mem_cons_self _ _)
    have hrest : stockNonneg rest := fun kv hkv => hs kv (List.mem_cons_of_mem _ hkv)
    by_cases h : k1 = k
    · intro kv hkv
      simp [dset, h] at hkv
      rcases hkv with hkv | hkv
      · simp [hkv, hv]
      · exact hrest kv hkv
    · intro kv hkv
      simp only [dset, h, if_false, List.mem_cons] at hkv
      rcases hkv with hkv | hkv
      · simp [hkv, h1]
      · exact ih hrest kv hkv

theorem stockNonneg_ddel (s : Stock) (k : String) (hs : stockNonneg s) :
    stockNonneg (ddel s k) := by
  induction s with
  | nil =>
    simpa [ddel] using hs
  | cons kv1 rest ih =>
    obtain ⟨k1, v1⟩ := kv1
    have h1 : 0 ≤ v1 := hs (k1, v1) (List.mem_cons_self _ _)
    have hrest : stockNonneg rest := fun kv hkv => hs kv (List.mem_cons_of_mem _ hkv)
    by_cases h : k1 = k
    · simpa [ddel, h] using ih hrest
    · intro kv hkv
      simp only [ddel, h, if_false, List.mem_cons] at hkv
      rcases hkv with hkv | hkv
      · simp [hkv, h1]
      · exact ih hrest kv hkv

theorem dget_nonneg (s : Stock) (k : String) (c : Int) (hs : stockNonneg s)
    (h : dget s k = some c) : 0 ≤ c :=
  hs (k, c) (dget_mem s k c h)

theorem dget_getD_nonneg (s : Stock) (k : String) (hs : stockNonneg s) :
    0 ≤ (dget s k).getD 0 := by
  cases h : dget s k with
  | none => simp
  | some c => simpa using dget_nonneg s k c hs h

/-! ### Success characterizations of the mutating methods -/

theorem add_item_ok (item qty : PyVal) (s t : Stock)
    (h : add_item item qty s = (t, none)) :
    pyIsStr item = true ∧ pyIsInt qty = true ∧ 0 ≤ pyAsInt qty ∧
      t = dset s (pyAsStr item) ((dget s (pyAsStr item)).getD 0 + pyAsInt qty) := by
  unfold add_item at h
  by_cases h1 : pyIsStr item = true
  · by_cases h2 : pyIsInt qty = true
    · by_cases h3 : pyAsInt qty < 0
      · simp [h1, h2, h3] at h
      · simp only [h1, h2, h3, not_true, not_false_iff, if_false, if_true,
          Prod.mk.injEq] at h
        exact ⟨h1, h2, by omega, h.1.symm⟩
    · simp [h1, h2] at h
  · simp [h1] at h

theorem remove_item_ok (item qty : PyVal) (s t : Stock)
    (h : remove_item item qty s = (t, none)) :
    pyIsStr item = true ∧ pyIsInt qty = true ∧ 0 ≤ pyAsInt qty ∧
      ∃ c, dget s (pyAsStr item) = some c ∧
        ((c ≤ pyAsInt qty ∧ t = ddel s (pyAsStr item)) ∨
          (pyAsInt qty < c ∧ t = dset s (pyAsStr item) (c - pyAsInt qty))) := by
  unfold remove_item at h
  by_cases h1 : pyIsStr item = true
  · by_cases h2 : pyIsInt qty = true
    · by_cases h3 : pyAsInt qty < 0
      · simp [h1, h2, h3] at h
      · simp only [h1, h2, h3, not_true, not_false_iff, if_false, if_true] at h
        cases hget : dget s (pyAsStr item) with
        | none =>
          rw [hget] at h
          simp at h
        | some c =>
          rw [hget] at h
          refine ⟨h1, h2, by omega, c, rfl, ?_⟩
          by_cases hc : c ≤ pyAsInt qty
          · simp only [hc, if_true, Prod.mk.injEq] at h
            exact Or.inl ⟨hc, h.1.symm⟩
          · simp only [hc, if_false, Prod.mk.injEq] at h
            exact Or.inr ⟨by omega, h.1.symm⟩
    · simp [h1, h2] at h
  · simp [h1] at h

/-! ### Lemmas about loading and saving -/

theorem coerceStock_nonneg (fields : List (String × JVal)) :
    ∀ acc d : Stock, stockNonneg acc →
      (∀ kv ∈ fields, ∀ n : Int, pyIntOf kv.2 = .ok n → 0 ≤ n) →
      coerceStock fields acc = .ok d → stockNonneg d := by
  induction fields with
  | nil =>
    intro acc d hacc _ h
    simp only [coerceStock, Except.ok.injEq] at h
    exact h ▸ hacc
  | cons kv rest ih =>
    intro acc d hacc hf h
    obtain ⟨k, v⟩ := kv
    cases hv : pyIntOf v with
    | ok n =>
      rw [coerceStock, hv] at h
      have hn : 0 ≤ n := hf (k, v) (List.mem_cons_self _ _) n hv
      exact ih (dset acc k n) d (stockNonneg_dset acc k n hacc hn)
        (fun kw hkw => hf kw (List.mem_cons_of_mem _ hkw)) h
    | error e =>
      rw [coerceStock, hv] at h
      simp at h

theorem load_data_nonneg (file : FileContent) (s : Stock)
    (hs : stockNonneg s) (hf : nonnegFile file) :
    stockNonneg (load_data file s).1 := by
  cases file with
  | missing => exact hs
  | malformed => exact hs
  | json v =>
    cases v with
    | jobj fields =>
      simp only [load_data]
      cases hc : coerceStock fields [] with
      | ok d =>
        exact coerceStock_nonneg fields [] d stockNonneg_nil hf hc
      | error e => cases e <;> exact hs
    | jnull => exact hs
    | jbool b => exact hs
    | jint n => exact hs
    | jfloat m e => exact hs
    | jinf => exact hs
    | jninf => exact hs
    | jnan => exact hs
    | jstr t => exact hs
    | jarr xs => exact hs

theorem initStock_nonneg_aux (l : List (String × Int)) :
    ∀ acc : Stock, stockNonneg acc → (∀ kv ∈ l, 0 ≤ kv.2) →
      stockNonneg (l.foldl (fun acc kv => dset acc kv.1 kv.2) acc) := by
  induction l with
  | nil =>
    intro acc hacc _
    simpa using hacc
  | cons kv rest ih =>
    intro acc hacc hl
    simp only [List.foldl_cons]
    exact ih (dset acc kv.1 kv.2)
      (stockNonneg_dset acc kv.1 kv.2 hacc (hl kv (List.mem_cons_self _ _)))
      (fun kw hkw => hl kw (List.mem_cons_of_mem _ hkw))

theorem dset_eq_append (acc : Stock) (k : String) (v : Int)
    (h : ∀ kv ∈ acc, kv.1 ≠ k) : dset acc k v = acc ++ [(k, v)] := by
  induction acc with
  | nil => simp [dset]
  | cons kv1 rest ih =>
    obtain ⟨k1, v1⟩ := kv1
    have h1 : k1 ≠ k := h (k1, v1) (List.mem_cons_self _ _)
    simp only [dset, h1, if_false, List.cons_append, List.cons.injEq, true_and]
    exact ih fun kw hkw => h kw (List.mem_cons_of_mem _ hkw)

theorem coerceStock_of_saved (s : Stock) :
    ∀ acc : Stock, distinctKeys s → (∀ kv ∈ acc, ∀ kw ∈ s, kv.1 ≠ kw.1) →
      coerceStock (s.map fun kv => (kv.1, JVal.jint kv.2)) acc = .ok (acc ++ s) := by
  induction s with
  | nil =>
    intro acc _ _
    simp [coerceStock]
  | cons kv rest ih =>
    intro acc hd hdisj
    obtain ⟨k, v⟩ := kv
    have hk : ∀ kw ∈ acc, kw.1 ≠ k :=
      fun kw hkw => hdisj kw hkw (k, v) (List.mem_cons_self _ _)
    have hrestd : distinctKeys rest := by
      simpa [distinctKeys] using (List.nodup_cons.mp hd).2
    have hknotin : k ∉ rest.map Prod.fst := by
      simpa [distinctKeys] using (List.nodup_cons.mp hd).1
    simp only [List.map_cons, coerceStock, pyIntOf]
    rw [dset_eq_append acc k v hk]
    rw [ih (acc ++ [(k, v)]) hrestd ?_]
    · simp
    · intro kw hkw kx hkx
      rcases List.mem_append.mp hkw with hkw | hkw
      · exact hdisj kw hkw kx (List.mem_cons_of_mem _ hkx)
      · have hkwk : kw = (k, v) := by simpa using hkw
        subst hkwk
        intro he
        have hkk : k = kx.1 := he
        exact hknotin (hkk.symm ▸ List.mem_map_of_mem Prod.fst hkx)

/-! ### Lemmas about call sequences -/

theorem stepOp_ok_dget (s t : Stock) (op : Op) (item : String)
    (h : stepOp s op = (t, none)) :
    dget t item = itemStep item (dget s item) op := by
  cases op with
  | add i q =>
    obtain ⟨_, _, hq, ht⟩ := add_item_ok _ _ _ _ h
    subst ht
    simp only [itemStep, pyAsStr, pyAsInt]
    by_cases hi : i = item
    · subst hi
      simp [dget_dset_self]
    · rw [dget_dset_ne _ _ _ _ fun he => hi he.symm]
      simp [hi]
  | remove i q =>
    obtain ⟨_, _, hq, c, hc, hbranch⟩ := remove_item_ok _ _ _ _ h
    simp only [pyAsStr, pyAsInt] at hc hbranch
    rcases hbranch with ⟨hle, ht⟩ | ⟨hlt, ht⟩
    · subst ht
      by_cases hi : i = item
      · subst hi
        rw [dget_ddel_self]
        simp [itemStep, hc, hle]
      · rw [dget_ddel_ne _ _ _ fun he => hi he.symm]
        simp [itemStep, hi]
    · subst ht
      by_cases hi : i = item
      · subst hi
        rw [dget_dset_self]
        simp [itemStep, hc, show ¬ (c ≤ q) from by omega]
      · rw [dget_dset_ne _ _ _ _ fun he => hi he.symm]
        simp [itemStep, hi]

theorem itemRun_cons (item : String) (st : Option Int) (op : Op) (ops : List Op) :
    itemRun item st (op :: ops) = itemRun item (itemStep item st op) ops := rfl

theorem stepOp_ok_nonneg (s t : Stock) (op : Op)
    (h : stepOp s op = (t, none)) (hs : stockNonneg s) : stockNonneg t := by
  cases op with
  | add i q =>
    obtain ⟨_, _, hq, ht⟩ := add_item_ok _ _ _ _ h
    subst ht
    have h0 := dget_getD_nonneg s (pyAsStr (.vStr i)) hs
    exact stockNonneg_dset _ _ _ hs (by omega)
  | remove i q =>
    obtain ⟨_, _, hq, c, hc, hbranch⟩ := remove_item_ok _ _ _ _ h
    rcases hbranch with ⟨hle, ht⟩ | ⟨hlt, ht⟩
    · subst ht
      exact stockNonneg_ddel _ _ hs
    · subst ht
      exact stockNonneg_dset _ _ _ hs (by omega)

theorem runOps_dget (item : String) (ops : List Op) :
    ∀ s t : Stock, runOps s ops = some t →
      dget t item = itemRun item (dget s item) ops := by
  induction ops with
  | nil =>
    intro s t h
    simp only [runOps, Option.some.injEq] at h
    subst h
    rfl
  | cons op rest ih =>
    intro s t h
    rw [runOps] at h
    rcases hstep : stepOp s op with ⟨s1, err⟩
    rw [hstep] at h
    cases err with
    | none =>
      simp only [] at h
      have h1 := ih s1 t h
      rw [h1, itemRun_cons, stepOp_ok_dget s s1 op item hstep]
    | some e => simp at h

theorem runOps_nonneg (ops : List Op) :
    ∀ s t : Stock, stockNonneg s → runOps s ops = some t → stockNonneg t := by
  induction ops with
  | nil =>
    intro s t hs h
    simp only [runOps, Option.some.injEq] at h
    exact h ▸ hs
  | cons op rest ih =>
    intro s t hs h
    rw [runOps] at h
    rcases hstep : stepOp s op with ⟨s1, err⟩
    rw [hstep] at h
    cases err with
    | none =>
      simp only [] at h
      exact ih s1 t (stepOp_ok_nonneg s s1 op hstep hs) h
    | some e => simp at h

theorem itemRun_none_of_no_add (item : String) (ops : List Op)
    (h : ∀ q : Int, Op.add item q ∉ ops) : itemRun item none ops = none := by
  induction ops with
  | nil => rfl
  | cons op rest ih =>
    have hrest : ∀ q : Int, Op.add item q ∉ rest :=
      fun q hq => h q (List.mem_cons_of_mem _ hq)
    have hstep : itemStep item none op = none := by
      cases op with
      | add i q =>
        have hi : ¬ i = item := by
          intro he
          subst he
          exact h q (List.mem_cons_self _ _)
        simp [itemStep, hi]
      | remove i q => by_cases hi : i = item <;> simp [itemStep, hi]
    rw [itemRun, List.foldl_cons, hstep]
    exact ih hrest

/-! ### Remaining helper lemmas -/

theorem reachable_stockNonneg (s : Stock) (hr : Reachable s) : stockNonneg s := by
  induction hr with
  | empty => exact stockNonneg_nil
  | init l hl => exact initStock_nonneg_aux l [] stockNonneg_nil hl
  | addStep s t item qty h he ih =>
    obtain ⟨_, _, hq, ht⟩ := add_item_ok _ _ _ _ he
    subst ht
    have h0 := dget_getD_nonneg s (pyAsStr item) ih
    exact stockNonneg_dset _ _ _ ih (by omega)
  | removeStep s t item qty h he ih =>
    obtain ⟨_, _, hq, c, hc, hb⟩ := remove_item_ok _ _ _ _ he
    rcases hb with ⟨hle, ht⟩ | ⟨hlt, ht⟩
    · subst ht
      exact stockNonneg_ddel _ _ ih
    · subst ht
      exact stockNonneg_dset _ _ _ ih (by omega)
  | loadStep s file h hf ih => exact load_data_nonneg file s ih hf

theorem coerceStock_floatbool (fields : List (String × JVal)) :
    ∀ acc : Stock, (∀ kv ∈ fields, isFiniteFloatOrBool kv.2 = true) →
      coerceStock fields acc =
        .ok (fields.foldl (fun a kv => dset a kv.1 (floatBoolToInt kv.2)) acc) := by
  induction fields with
  | nil =>
    intro acc _
    simp [coerceStock]
  | cons kv rest ih =>
    intro acc hf
    obtain ⟨k, v⟩ := kv
    have hv : isFiniteFloatOrBool v = true := hf (k, v) (List.mem_cons_self _ _)
    have hok : pyIntOf v = .ok (floatBoolToInt v) := by
      cases v with
      | jfloat m e => rfl
      | jbool b => rfl
      | jnull => simp [isFiniteFloatOrBool] at hv
      | jint n => simp [isFiniteFloatOrBool] at hv
      | jinf => simp [isFiniteFloatOrBool] at hv
      | jninf => simp [isFiniteFloatOrBool] at hv
      | jnan => simp [isFiniteFloatOrBool] at hv
      | jstr t => simp [isFiniteFloatOrBool] at hv
      | jarr xs => simp [isFiniteFloatOrBool] at hv
      | jobj fs => simp [isFiniteFloatOrBool] at hv
    rw [coerceStock, hok]
    simp only [List.foldl_cons]
    exact ih (dset acc k (floatBoolToInt v))
      fun kw hkw => hf kw (List.mem_cons_of_mem _ hkw)

/-! ### The claims -/

/-- C1, counterexample: the state `{"x": 0}` is reachable (empty ledger,
then `add_item("x", 0)`, a call the source accepts since `0 ≥ 0`), and in
it the item `"x"` is present with quantity `0`, refuting the invariant
"item present ⟺ quantity > 0". -/
theorem zero_qty_entry_reachable :
    Reachable [("x", 0)] ∧ dget [("x", 0)] "x" = some 0 ∧ ¬ (0 < (0 : Int)) :=
  ⟨Reachable.addStep [] [("x", 0)] (.vStr "x") (.vInt 0) Reachable.empty (by decide),
    by decide, by decide⟩

/-- C1 (amended): in every reachable ledger state — created empty or from
an initial mapping with nonnegative quantities, then mutated via
`add_item` / `remove_item` and via loads of files whose coerced values
are nonnegative — every entry's quantity is `≥ 0`.  Quantity-0 entries
can occur (e.g. via `add_item` with `qty = 0`), so presence implies
quantity `≥ 0` but not quantity `> 0`. -/
theorem reachable_entry_nonneg (s : Stock) (kv : String × Int)
    (hr : Reachable s) (hm : kv ∈ s) : 0 ≤ kv.2 :=
  reachable_stockNonneg s hr kv hm

/-- C1 witness: the amended invariant applied to the concrete reachable
state `{"x": 0}` and its entry. -/
theorem reachable_entry_nonneg_witness : 0 ≤ (("x", (0 : Int))).2 :=
  reachable_entry_nonneg [("x", 0)] ("x", 0)
    (Reachable.addStep [] [("x", 0)] (.vStr "x") (.vInt 0) Reachable.empty (by decide))
    (by decide)

/-- C2, counterexample: loading a nonexistent path into the nonempty
ledger `{"a": 1}` leaves it `{"a": 1}`, which is not empty — the
`FileNotFoundError` handler at source lines 93–94 only logs and keeps the
prior `self._stock`. -/
theorem load_missing_keeps_nonempty_stock :
    load_data FileContent.missing [("a", 1)] = ([("a", 1)], none) ∧
      ([("a", 1)] : Stock) ≠ ([] : Stock) :=
  ⟨rfl, by decide⟩

/-- C2 (amended): `load_data` on a nonexistent path leaves the ledger in
its prior state (so a fresh, empty ledger stays empty), logs
informationally, and raises nothing: the `FileNotFoundError` is
caught. -/
theorem load_missing_eq_prior (s : Stock) :
    load_data FileContent.missing s = (s, none) := rfl

/-- C3, evaluated at the failing input: the file `{"x": 1e400}` is valid
JSON whose value `json.load` parses to the infinite float `inf`;
`int(inf)` raises `OverflowError`, which `except (TypeError, ValueError)`
at source line 97 does not catch, so — against the claim and the spec's
stated absorb-all-load-errors policy — the error propagates to the
caller.  The prior mapping itself is kept (the comprehension aborts
before the assignment): only the no-propagation half of the claim is
what the code breaks. -/
theorem load_overflow_propagates :
    load_data (FileContent.json (JVal.jobj [("x", JVal.jinf)])) [("a", 2)] =
      ([("a", 2)], some PyErr.overflowError) := rfl

/-- C4: saving any ledger (whose keys are distinct, as every real dict's
are) and loading the saved file into a fresh empty ledger reproduces the
stock exactly — same keys, same quantities, same order, and nothing
raised; the key/value coercions `str`/`int` are the identity on the
saved strings and integers. -/
theorem save_load_roundtrip (s : Stock) (h : distinctKeys s) :
    load_data (save_data s) [] = (s, none) := by
  have hc := coerceStock_of_saved s [] h (by simp)
  simp [load_data, save_data, hc]

/-- C4 witness: the round trip on the concrete ledger
`{"apple": 7, "banana": 2}`. -/
theorem save_load_roundtrip_witness :
    load_data (save_data [("apple", 7), ("banana", 2)]) [] =
      ([("apple", 7), ("banana", 2)], none) :=
  save_load_roundtrip [("apple", 7), ("banana", 2)] (by decide)

/-- C5: on a ledger where `item` is present with quantity `c` and a valid
`qty ≥ 0`, `remove_item` raises nothing and deletes the binding entirely
when `c ≤ qty` — after which `get_qty` returns `0` — and otherwise sets
the quantity to `c - qty`, which is strictly positive, so no negative
quantity is ever stored. -/
theorem remove_item_present_spec (s : Stock) (item : String) (qty c : Int)
    (hc : dget s item = some c) (hq : 0 ≤ qty) :
    remove_item (PyVal.vStr item) (PyVal.vInt qty) s =
      (if c ≤ qty then ddel s item else dset s item (c - qty), none) ∧
    get_qty (PyVal.vStr item) (ddel s item) = Except.ok 0 ∧
    (qty < c → dget (dset s item (c - qty)) item = some (c - qty) ∧ 0 < c - qty) := by
  refine ⟨?_, ?_, ?_⟩
  · simp only [remove_item, pyIsStr, pyIsInt, pyAsStr, pyAsInt, hc,
      if_neg (show ¬ (qty < 0) from by omega), not_true, not_false_iff,
      if_false, Bool.not_true]
    by_cases hle : c ≤ qty <;> simp [hle]
  · simp [get_qty, pyIsStr, pyAsStr, dget_ddel_self]
  · intro hlt
    exact ⟨dget_dset_self s item (c - qty), by omega⟩

/-- C5 witness: `remove_item("apple", 3)` on `{"apple": 10}` leaves
`{"apple": 7}` and raises nothing. -/
theorem remove_item_present_spec_witness :
    remove_item (PyVal.vStr "apple") (PyVal.vInt 3) [("apple", 10)] =
      ([("apple", 7)], none) := by
  have h := remove_item_present_spec [("apple", 10)] "apple" 3 10 (by decide) (by decide)
  rw [h.1]
  decide

/-- C6: `remove_item` on an item absent from the mapping, with a valid
`qty ≥ 0`, always raises `KeyError` (NotFound; the warning is logged just
before the raise) and leaves the stock mapping exactly unchanged — the
post-call stock is the input stock. -/
theorem remove_item_absent_spec (s : Stock) (item : String) (qty : Int)
    (h : dget s item = none) (hq : 0 ≤ qty) :
    remove_item (PyVal.vStr item) (PyVal.vInt qty) s = (s, some PyErr.keyError) := by
  simp [remove_item, pyIsStr, pyIsInt, pyAsStr, pyAsInt, h,
    show ¬ (qty < 0) from by omega]

/-- C6 witness: removing the absent `"pear"` from `{"apple": 10}` raises
`KeyError` and keeps the stock. -/
theorem remove_item_absent_spec_witness :
    remove_item (PyVal.vStr "pear") (PyVal.vInt 4) [("apple", 10)] =
      ([("apple", 10)], some PyErr.keyError) :=
  remove_item_absent_spec [("apple", 10)] "pear" 4 (by decide) (by decide)

/-- C7, counterexample: the successful sequence `add("x",5)`,
`remove("x",10)` (deletes the item), `add("x",3)` ends with
`getQuantity("x") = 3`, but the claim's formula — sum of quantities added
minus sum of quantities removed, floored at absent/0 — gives
`max 0 (8 - 10) = 0 ≠ 3` (and unfloored, `-2 ≠ 3`). -/
theorem qty_sum_formula_fails :
    runOps [] [Op.add "x" 5, Op.remove "x" 10, Op.add "x" 3] = some [("x", 3)] ∧
    getQty [("x", 3)] "x" = 3 ∧
    sumAdded "x" [Op.add "x" 5, Op.remove "x" 10, Op.add "x" 3] -
      sumRemoved "x" [Op.add "x" 5, Op.remove "x" 10, Op.add "x" 3] ≠ 3 ∧
    max 0 (sumAdded "x" [Op.add "x" 5, Op.remove "x" 10, Op.add "x" 3] -
      sumRemoved "x" [Op.add "x" 5, Op.remove "x" 10, Op.add "x" 3]) ≠ 3 :=
  ⟨by decide, by decide, by decide, by decide⟩

/-- C7 (amended): after any successful sequence of `add`/`remove` calls
from an empty ledger, the binding of each item equals the per-item fold
of the sequence (each add of the item adds its `q` to the current value,
each remove deletes the binding when current `≤ q` and subtracts
otherwise, and calls naming other items leave it untouched); the
resulting quantity is never negative; and an item never added reads as
`0` via `get_qty` rather than failing. -/
theorem getQty_itemRun_spec (ops : List Op) (item : String) (t : Stock)
    (h : runOps [] ops = some t) :
    dget t item = itemRun item none ops ∧
    0 ≤ getQty t item ∧
    ((∀ q : Int, Op.add item q ∉ ops) → get_qty (PyVal.vStr item) t = Except.ok 0) := by
  have hd : dget t item = itemRun item none ops := runOps_dget item ops [] t h
  have hnn := runOps_nonneg ops [] t stockNonneg_nil h
  refine ⟨hd, ?_, ?_⟩
  · exact dget_getD_nonneg t item hnn
  · intro hno
    have hnone : dget t item = none := hd.trans (itemRun_none_of_no_add item ops hno)
    simp [get_qty, pyIsStr, pyAsStr, hnone]

/-- C7 witness: the per-item fold equation applied to the concrete
sequence of the counterexample. -/
theorem getQty_itemRun_spec_witness :
    dget [("x", 3)] "x" =
      itemRun "x" none [Op.add "x" 5, Op.remove "x" 10, Op.add "x" 3] :=
  (getQty_itemRun_spec [Op.add "x" 5, Op.remove "x" 10, Op.add "x" 3] "x"
    [("x", 3)] (by decide)).1

/-- C8: with an integer threshold, `check_low_items` returns (without
failing) exactly the names of the bindings whose quantity is strictly
below the threshold, in the mapping's insertion order (`filter` keeps
order); an item is listed iff it is present with a quantity `< t`, so an
item exactly at the threshold is not listed. -/
theorem check_low_items_spec (s : Stock) (t : Int) (h : distinctKeys s) :
    check_low_items (PyVal.vInt t) s =
      Except.ok ((s.filter fun kv => kv.2 < t).map Prod.fst) ∧
    ∀ item : String,
      item ∈ (s.filter fun kv => kv.2 < t).map Prod.fst ↔
        ∃ c, dget s item = some c ∧ c < t := by
  constructor
  · simp [check_low_items, pyIsInt, pyAsInt]
  · intro item
    constructor
    · intro hm
      rcases List.mem_map.mp hm with ⟨kv, hkv, hfst⟩
      have hkv2 := List.mem_filter.mp hkv
      refine ⟨kv.2, ?_, by simpa using hkv2.2⟩
      rw [← hfst]
      exact dget_eq_some_of_mem s kv.1 kv.2 h (by simpa using hkv2.1)
    · rintro ⟨c, hc, hlt⟩
      exact List.mem_map.mpr ⟨(item, c),
        List.mem_filter.mpr ⟨dget_mem s item c hc, by simpa using hlt⟩, rfl⟩

/-- C8 witness: on the stock `{"apple": 3, "banana": 10, "pear": 5}` with
threshold 5, exactly `["apple"]` is returned (`"pear"` at 5 is not
`< 5`). -/
theorem check_low_items_spec_witness :
    check_low_items (PyVal.vInt 5) [("apple", 3), ("banana", 10), ("pear", 5)] =
      Except.ok ["apple"] := by
  have h := check_low_items_spec [("apple", 3), ("banana", 10), ("pear", 5)] 5
    (by decide)
  rw [h.1]
  decide

/-- C9: `add_item` raises (InvalidArgument, i.e. `TypeError` or
`ValueError`) iff the item is not a string, the quantity is not an int
(in Python's sense, where a bool counts as an int), or the quantity is
negative; on success its sole effect is to set the item's binding to
`get(item, 0) + qty`, leaving every other key's binding unchanged. -/
theorem add_item_spec (item qty : PyVal) (s : Stock) :
    ((add_item item qty s).2 ≠ none ↔
      (pyIsStr item = false ∨ pyIsInt qty = false ∨ pyAsInt qty < 0)) ∧
    ((add_item item qty s).2 = none →
      dget (add_item item qty s).1 (pyAsStr item) =
        some ((dget s (pyAsStr item)).getD 0 + pyAsInt qty) ∧
      ∀ k : String, k ≠ pyAsStr item → dget (add_item item qty s).1 k = dget s k) := by
  by_cases h1 : pyIsStr item = true
  · by_cases h2 : pyIsInt qty = true
    · by_cases h3 : pyAsInt qty < 0
      · constructor
        · simp [add_item, h1, h2, h3]
        · intro hnone
          simp [add_item, h1, h2, h3] at hnone
      · constructor
        · simp [add_item, h1, h2, h3]
        · intro _
          constructor
          · simp [add_item, h1, h2, h3, dget_dset_self]
          · intro k hk
            have hne := dget_dset_ne s (pyAsStr item) k
              ((dget s (pyAsStr item)).getD 0 + pyAsInt qty) hk
            simpa [add_item, h1, h2, h3] using hne
    · have h2f : pyIsInt qty = false := by simpa using h2
      constructor
      · simp [add_item, h1, h2f]
      · intro hnone
        simp [add_item, h1, h2f] at hnone
  · have h1f : pyIsStr item = false := by simpa using h1
    constructor
    · simp [add_item, h1f]
    · intro hnone
      simp [add_item, h1f] at hnone

/-- C9 witness: the success-effect clause applied at
`add_item("a", 2)` on the empty ledger. -/
theorem add_item_spec_witness :
    dget (add_item (PyVal.vStr "a") (PyVal.vInt 2) []).1 "a" = some 2 := by
  have h := (add_item_spec (PyVal.vStr "a") (PyVal.vInt 2) []).2 (by decide)
  exact h.1.trans (by decide)

/-- C10, counterexample: `inf` — what `json.load` returns for the valid
number literal `1e400` — is a Python float (`isinstance(inf, float)`),
yet loading the object `{"y": 1e400}` does not succeed: `int(inf)`
raises `OverflowError`, which escapes `load_data`, refuting the claim
that `load` succeeds on every object whose values are floats or
bools. -/
theorem load_inf_float_not_success :
    isFloatValue JVal.jinf = true ∧
      load_data (FileContent.json (JVal.jobj [("y", JVal.jinf)])) [("z", 7)] =
        ([("z", 7)], some PyErr.overflowError) :=
  ⟨rfl, rfl⟩

/-- C10 (amended): loading a file holding a JSON object whose values are
all *finite* floats or bools succeeds — `int()` accepts them — and
replaces the prior stock wholesale by the coerced mapping: each finite
float (the binary64 value the parser produced; the literal `3.9` arrives
as `8782019273372467 × 2⁻⁵¹`) is truncated toward zero, so `3.9 ↦ 3`,
and `True ↦ 1` / `False ↦ 0`; the result does not depend on the prior
state `s`, and nothing is raised.  An infinite float value instead makes
`load_data` propagate `OverflowError`. -/
theorem load_finite_float_bool_spec (s : Stock) (fields : List (String × JVal))
    (h : ∀ kv ∈ fields, isFiniteFloatOrBool kv.2 = true) :
    load_data (FileContent.json (JVal.jobj fields)) s =
      (fields.foldl (fun a kv => dset a kv.1 (floatBoolToInt kv.2)) [], none) := by
  simp [load_data, coerceStock_floatbool fields [] h]

/-- C10 witness: loading `{"x": 3.9, "y": true}` (with `3.9` the parsed
binary64 `8782019273372467 × 2⁻⁵¹`) over the prior stock `{"z": 7}`
yields exactly `{"x": 3, "y": 1}` with nothing raised. -/
theorem load_finite_float_bool_spec_witness :
    load_data (FileContent.json (JVal.jobj
        [("x", JVal.jfloat 8782019273372467 (-51)), ("y", JVal.jbool true)]))
      [("z", 7)] = ([("x", 3), ("y", 1)], none) := by
  have h := load_finite_float_bool_spec [("z", 7)]
    [("x", JVal.jfloat 8782019273372467 (-51)), ("y", JVal.jbool true)] (by decide)
  rw [h]
  decide
